import Mathlib

/-!
Verification of the DocGen_LLM extraction pipeline against its
natural-language specification.

Shallow embedding of the Python sources:
* `src/src/extraction/models.py`       — positions, ranges, symbol / file /
  folder models, call-graph linking, most-specific-symbol lookup;
* `src/src/extraction/lsp_extractor.py`— per-file extraction pipeline,
  definition filter, reference matching, didOpen bookkeeping;
* `src/src/extraction/lsp_client/standalone_lsp_client.py` and
  `docker_lsp_client.py`               — symbol-kind filtering, message
  dispatch, request timeouts, shutdown;
* `src/src/storage/database.py`        — transactional persistence and
  call-edge rows.

Machine integers of the source are modelled as `Nat` (LSP positions are
unsigned; no wrap-around arithmetic occurs in the modelled code paths);
signed differences use `Int`.  Fallible operations return `Option`.
-/

/-! ## Positions and ranges (`models.py`: `LSPPosition`, `LSPRange`) -/

/-- `LSPPosition` of `models.py`: zero-based line/character. -/
structure LSPPosition where
  line : Nat
  character : Nat
deriving DecidableEq, Repr

/-- `LSPRange` of `models.py`. -/
structure LSPRange where
  start : LSPPosition
  stop : LSPPosition
deriving DecidableEq, Repr

/-- `LSPRange.contains` (models.py lines 32-38): `self` contains
`other_range` iff `self.start ≤ other.start` and `self.end ≥ other.end`,
lexicographically on `(line, character)`. -/
def LSPRange.containsRange (self other : LSPRange) : Bool :=
  (self.start.line < other.start.line ||
    (self.start.line == other.start.line &&
      self.start.character ≤ other.start.character)) &&
  (self.stop.line > other.stop.line ||
    (self.stop.line == other.stop.line &&
      self.stop.character ≥ other.stop.character))

/-! ## documentSymbol trees and the kind filter (claim C2)

An LSP `documentSymbol` result entry is a JSON object with a `kind`, a
`name`, and an optional `children` key; the presence of the key matters to
both filters, so children are modelled as `Option (List DocSym)`. -/

/-- One node of a `textDocument/documentSymbol` hierarchical result. -/
inductive DocSym : Type where
  | mk (name : String) (kind : Nat) (children : Option (List DocSym))

/-- The `kind` field of a node. -/
def DocSym.kind : DocSym → Nat
  | .mk _ k _ => k

/-- The `children` field of a node (`none` = key absent). -/
def DocSym.childrenField : DocSym → Option (List DocSym)
  | .mk _ _ c => c

/-- `DockerLSPClient._filter_symbols_by_kind` recursion
(docker_lsp_client.py lines 445-470), for a non-empty wanted list: a node
is emitted iff its own kind is wanted or some child survives; the
`children` key of an emitted node is the filtered children when non-empty
and is deleted otherwise. -/
def dockerFilterList (wanted : List Nat) : List DocSym → List DocSym
  | [] => []
  | .mk n k none :: rest =>
    (if k ∈ wanted then [DocSym.mk n k none] else []) ++ dockerFilterList wanted rest
  | .mk n k (some cs) :: rest =>
    let fc := dockerFilterList wanted cs
    (if k ∈ wanted || !fc.isEmpty then
      [DocSym.mk n k (if fc.isEmpty then none else some fc)]
    else []) ++ dockerFilterList wanted rest

/-- `DockerLSPClient._filter_symbols_by_kind` entry point: an empty (or
missing) wanted list disables filtering and returns the input unchanged
(docker_lsp_client.py lines 447-449). -/
def docker_filter_symbols_by_kind (syms : List DocSym) (wanted : List Nat) : List DocSym :=
  if wanted.isEmpty then syms else dockerFilterList wanted syms

/-- `LSPClient._filter_symbols_by_kind` of the standalone client
(standalone_lsp_client.py lines 395-421): a node is kept iff its own kind
is in the wanted list; the children of a kept node are filtered
recursively only when the `children` key is present and non-empty
(`if 'children' in symbol and symbol['children']`). -/
def standalone_filter_symbols_by_kind (wanted : List Nat) : List DocSym → List DocSym
  | [] => []
  | .mk n k none :: rest =>
    (if k ∈ wanted then [DocSym.mk n k none] else []) ++
      standalone_filter_symbols_by_kind wanted rest
  | .mk n k (some cs) :: rest =>
    (if k ∈ wanted then
      [DocSym.mk n k (if cs.isEmpty then some cs
        else some (standalone_filter_symbols_by_kind wanted cs))]
    else []) ++ standalone_filter_symbols_by_kind wanted rest

/-- Spec-side predicate (claim C2 wording): the node's own kind is wanted
or some descendant's kind is wanted. -/
def subtreeHasWantedKind (wanted : List Nat) : DocSym → Bool
  | .mk _ k none => k ∈ wanted
  | .mk _ k (some cs) => k ∈ wanted || cs.attach.any (fun c => subtreeHasWantedKind wanted c.1)
decreasing_by
  have := List.sizeOf_lt_of_mem c.2
  simp_all
  omega

/-- Spec-side pruning of a kept node, mirroring the claim: its children
are the wanted-subtree children, each pruned; the key is dropped when no
child survives. -/
def claimPrune (wanted : List Nat) : DocSym → DocSym
  | .mk n k none => .mk n k none
  | .mk n k (some cs) =>
    let fc := (cs.filter (subtreeHasWantedKind wanted)).attach.map
      (fun c => claimPrune wanted c.1)
    .mk n k (if fc.isEmpty then none else some fc)
decreasing_by
  have := List.sizeOf_lt_of_mem (List.mem_filter.mp c.2).1
  simp_all
  omega

/-- Standalone-side pruning of a kept node: children (when present and
non-empty) are filtered by own kind and pruned recursively. -/
def ownKindPrune (wanted : List Nat) : DocSym → DocSym
  | .mk n k none => .mk n k none
  | .mk n k (some cs) =>
    .mk n k (if cs.isEmpty then some cs
      else some ((cs.filter (fun c => c.kind ∈ wanted)).attach.map
        (fun c => ownKindPrune wanted c.1)))
decreasing_by
  have := List.sizeOf_lt_of_mem (List.mem_filter.mp c.2).1
  simp_all
  omega

/-! ### Unfolding lemmas for the spec-side C2 definitions -/

theorem subtreeHasWantedKind_some (w : List Nat) (n : String) (k : Nat) (cs : List DocSym) :
    subtreeHasWantedKind w (.mk n k (some cs))
      = ((k ∈ w : Bool) || cs.any (subtreeHasWantedKind w)) := by
  rw [subtreeHasWantedKind, Bool.eq_iff_iff]
  simp [List.any_eq_true]

theorem claimPrune_some (w : List Nat) (n : String) (k : Nat) (cs : List DocSym) :
    claimPrune w (.mk n k (some cs))
      = .mk n k
        (if ((cs.filter (subtreeHasWantedKind w)).map (claimPrune w)).isEmpty then none
         else some ((cs.filter (subtreeHasWantedKind w)).map (claimPrune w))) := by
  rw [claimPrune]
  simp [List.attach_map_val]

theorem ownKindPrune_some (w : List Nat) (n : String) (k : Nat) (cs : List DocSym) :
    ownKindPrune w (.mk n k (some cs))
      = .mk n k
        (if cs.isEmpty then some cs
         else some ((cs.filter (fun c => c.kind ∈ w)).map (ownKindPrune w))) := by
  rw [ownKindPrune]
  simp [List.attach_map_val]

theorem dockerFilterList_eq_claim (w : List Nat) (syms : List DocSym) :
    dockerFilterList w syms
      = (syms.filter (subtreeHasWantedKind w)).map (claimPrune w) := by
  induction syms using dockerFilterList.induct w with
  | case1 => simp [dockerFilterList]
  | case2 n k rest ih =>
    by_cases hk : k ∈ w <;>
      simp [dockerFilterList, subtreeHasWantedKind, claimPrune, hk, ih]
  | case3 n k cs rest ihc ihr =>
    by_cases hany : cs.any (subtreeHasWantedKind w) = true
    · have hne : (cs.filter (subtreeHasWantedKind w)).map (claimPrune w) ≠ [] := by
        simp only [ne_eq, List.map_eq_nil_iff, List.filter_eq_nil_iff]
        intro hall
        rw [List.any_eq_true] at hany
        obtain ⟨x, hx, hpx⟩ := hany
        exact hall x hx hpx
      by_cases hk : k ∈ w <;>
        simp [dockerFilterList, subtreeHasWantedKind_some, claimPrune_some, hk, hany,
          ihc, ihr, hne, List.isEmpty_iff]
    · have hfalse : cs.any (subtreeHasWantedKind w) = false := by
        simpa using hany
      have hnil : cs.filter (subtreeHasWantedKind w) = [] := by
        rw [List.filter_eq_nil_iff]
        rw [List.any_eq_false] at hfalse
        exact hfalse
      by_cases hk : k ∈ w <;>
        simp [dockerFilterList, subtreeHasWantedKind_some, claimPrune_some, hk,
          hfalse, hnil, ihc, ihr, List.isEmpty_iff]

theorem standaloneFilterList_eq_ownKind (w : List Nat) (syms : List DocSym) :
    standalone_filter_symbols_by_kind w syms
      = (syms.filter (fun s => s.kind ∈ w)).map (ownKindPrune w) := by
  induction syms using standalone_filter_symbols_by_kind.induct w with
  | case1 => simp [standalone_filter_symbols_by_kind]
  | case2 n k rest ih =>
    by_cases hk : k ∈ w <;>
      simp [standalone_filter_symbols_by_kind, DocSym.kind, ownKindPrune, hk, ih]
  | case3 n k cs rest ihc ihr =>
    by_cases hk : k ∈ w <;>
      simp [standalone_filter_symbols_by_kind, DocSym.kind, ownKindPrune_some, hk, ihc, ihr]

/-! ### Claim C2 -/

/-- C2 counterexample: the claim predicts that a symbol whose subtree
contains a wanted kind is kept by both client variants; the standalone
client drops a kind-5 parent whose kind-12 child is wanted, returning the
empty tree. -/
theorem C2_counterexample :
    standalone_filter_symbols_by_kind [12]
        [DocSym.mk "C" 5 (some [DocSym.mk "m" 12 none])] = []
    ∧ subtreeHasWantedKind [12] (DocSym.mk "C" 5 (some [DocSym.mk "m" 12 none])) = true := by
  refine ⟨?_, ?_⟩
  · simp [standalone_filter_symbols_by_kind]
  · simp [subtreeHasWantedKind]

/-- C2 (amended): for a non-empty wanted set, the container-exec variant
keeps a symbol iff its own kind or some descendant's kind is wanted, and
removed descendants do not reappear (its output is the subtree-wanted
filter of the input with each kept node pruned); an empty wanted set
disables its filtering entirely.  The local-subprocess variant instead
keeps a symbol iff its own kind is wanted, recursively filtering the
children of kept symbols, so an unmatched ancestor of a matching
descendant is dropped. -/
theorem C2_kind_filter_amended (wanted : List Nat) (syms : List DocSym) :
    (wanted ≠ [] →
      docker_filter_symbols_by_kind syms wanted
        = (syms.filter (subtreeHasWantedKind wanted)).map (claimPrune wanted))
    ∧ docker_filter_symbols_by_kind syms [] = syms
    ∧ standalone_filter_symbols_by_kind wanted syms
        = (syms.filter (fun s => s.kind ∈ wanted)).map (ownKindPrune wanted) := by
  refine ⟨?_, ?_, standaloneFilterList_eq_ownKind wanted syms⟩
  · intro h
    rw [docker_filter_symbols_by_kind, if_neg (by simpa [List.isEmpty_iff] using h)]
    exact dockerFilterList_eq_claim wanted syms
  · simp [docker_filter_symbols_by_kind]

/-- C2 witness: the amended theorem applied at a concrete wanted set and
tree. -/
theorem C2_kind_filter_amended_witness :
    docker_filter_symbols_by_kind
        [DocSym.mk "C" 5 (some [DocSym.mk "m" 12 none])] [12]
      = (([DocSym.mk "C" 5 (some [DocSym.mk "m" 12 none])].filter
          (subtreeHasWantedKind [12])).map (claimPrune [12])) :=
  (C2_kind_filter_amended [12] [DocSym.mk "C" 5 (some [DocSym.mk "m" 12 none])]).1
    (by decide)

/-! ## Request timeouts (claim C4)

`_send_request` in both clients awaits a response event under
`asyncio.wait_for`; the await deadline is modelled in seconds as a
rational number, and the arrival of the response as an optional
`(time, payload)` pair. -/

/-- The methods given a longer timeout by the container-exec client
(docker_lsp_client.py line 401: `method in ['textDocument/documentSymbol',
'textDocument/references']`). -/
def isLongTimeoutMethod (method : String) : Bool :=
  method ∈ ["textDocument/documentSymbol", "textDocument/references"]

/-- Constructor default of `DockerLSPClient.request_timeout`
(docker_lsp_client.py line 19: `request_timeout: float = 20.0`). -/
def docker_default_request_timeout : ℚ := 20

/-- Deadline selection of `DockerLSPClient._send_request`
(docker_lsp_client.py lines 398-404): an explicit per-call timeout wins;
otherwise `documentSymbol`/`references` get `max(self.request_timeout,
60.0)` and every other method gets `self.request_timeout`. -/
def docker_effective_timeout (request_timeout : ℚ) (explicit : Option ℚ)
    (method : String) : ℚ :=
  match explicit with
  | some t => t
  | none =>
    if isLongTimeoutMethod method then max request_timeout 60
    else request_timeout

/-- Deadline of `LSPClient._send_request` of the standalone client
(standalone_lsp_client.py line 244: `request_timeout = 10.0`), used for
every method. -/
def standalone_request_timeout : ℚ := 10

/-- Claim-side deadline (claim C4 wording): the configurable default
(baseline 20 s), except 60 s for `documentSymbol` and `references`. -/
def claim_effective_timeout (default_timeout : ℚ) (method : String) : ℚ :=
  if isLongTimeoutMethod method then 60 else default_timeout

/-- `asyncio.wait_for(event.wait(), timeout)` as used by both
`_send_request` implementations: the caller observes the payload when it
arrives within the deadline and `None` (a timeout result, not a block)
otherwise. -/
def await_response {R : Type} (deadline : ℚ) (arrival : Option (ℚ × R)) : Option R :=
  match arrival with
  | some (t, r) => if t ≤ deadline then some r else none
  | none => none

/-! ### Claim C4 -/

/-- C4 counterexample: the claim predicts a 60-second deadline for
`textDocument/documentSymbol` in both variants; the standalone client
awaits every request for 10 seconds. -/
theorem C4_counterexample :
    standalone_request_timeout = 10
    ∧ claim_effective_timeout 20 "textDocument/documentSymbol" = 60
    ∧ standalone_request_timeout
        ≠ claim_effective_timeout 20 "textDocument/documentSymbol" := by
  refine ⟨rfl, ?_, ?_⟩ <;> simp [claim_effective_timeout, standalone_request_timeout,
    isLongTimeoutMethod]

/-- C4 (amended): only the container-exec client follows the claimed
timeout policy — at its 20-second constructor baseline its deadline agrees
with the claim for every method, and in general it is the maximum of the
configured default and the claimed deadline; the standalone client uses a
fixed 10-second deadline for every request.  In both, expiry yields a
`None` result to the caller rather than a block, and an in-deadline
arrival is delivered. -/
theorem C4_timeouts_amended {R : Type} (d dl : ℚ) (m : String) :
    docker_effective_timeout 20 none m = claim_effective_timeout 20 m
    ∧ docker_effective_timeout d none m = max d (claim_effective_timeout d m)
    ∧ docker_default_request_timeout = 20
    ∧ standalone_request_timeout = 10
    ∧ await_response (R := R) dl none = none
    ∧ (∀ (t : ℚ) (r : R), dl < t → await_response dl (some (t, r)) = none)
    ∧ (∀ (t : ℚ) (r : R), t ≤ dl → await_response dl (some (t, r)) = some r) := by
  refine ⟨?_, ?_, rfl, rfl, rfl, ?_, ?_⟩
  · by_cases h : isLongTimeoutMethod m <;>
      simp [docker_effective_timeout, claim_effective_timeout, h] <;> norm_num
  · by_cases h : isLongTimeoutMethod m <;>
      simp [docker_effective_timeout, claim_effective_timeout, h, max_comm]
  · intro t r ht
    simp [await_response, not_le.mpr ht]
  · intro t r ht
    simp [await_response, ht]

/-- C4 witness: the amended theorem applied at concrete method, deadline
and arrival times. -/
theorem C4_timeouts_amended_witness :
    docker_effective_timeout 20 none "textDocument/references"
        = claim_effective_timeout 20 "textDocument/references"
    ∧ await_response (R := Nat) 5 (some (7, 42)) = none
    ∧ await_response (R := Nat) 5 (some (3, 42)) = some 42 :=
  ⟨(C4_timeouts_amended (R := Nat) 20 5 "textDocument/references").1,
   (C4_timeouts_amended (R := Nat) 20 5 "textDocument/references").2.2.2.2.2.1 7 42
     (by norm_num),
   (C4_timeouts_amended (R := Nat) 20 5 "textDocument/references").2.2.2.2.2.2 3 42
     (by norm_num)⟩

/-! ## Inbound message dispatch (claim C3)

A JSON-RPC message is modelled by the presence/absence of its `id`,
`result`, `error` and `method` keys; payloads are abstracted to strings.
The per-session pending map (`self.responses` / `self.response_events`) is
an association list of responses plus the list of ids that still have a
registered wake event. -/

/-- An inbound JSON-RPC message as inspected by the reader loops: each
field models the presence of the corresponding JSON key. -/
structure RpcMessage where
  msgId : Option Nat
  result : Option String
  error : Option String
  method : Option String
deriving DecidableEq, Repr

/-- Python dict assignment `d[k] = v` on an association list. -/
def dictSet {κ α : Type} [DecidableEq κ] : List (κ × α) → κ → α → List (κ × α)
  | [], k, v => [(k, v)]
  | (k', v') :: rest, k, v =>
    if k' = k then (k, v) :: rest else (k', v') :: dictSet rest k v

/-- Python dict lookup `d.get(k)` on an association list. -/
def dictGet {κ α : Type} [DecidableEq κ] : List (κ × α) → κ → Option α
  | [], _ => none
  | (k', v) :: rest, k => if k' = k then some v else dictGet rest k

/-- The session's pending-request bookkeeping: stored responses and the
ids that still hold a registered `asyncio.Event`. -/
structure PendingState where
  responses : List (Nat × RpcMessage)
  events : List Nat
deriving DecidableEq, Repr

/-- One iteration of `LSPClient._message_reader_loop`
(standalone_lsp_client.py lines 138-149): any message carrying an `id` is
stored in `self.responses` and the matching event — when still registered
— is set (the returned flag); `method`-only messages are logged. -/
def standalone_handle_message (st : PendingState) (m : RpcMessage) :
    PendingState × Bool :=
  match m.msgId with
  | some rid =>
    ({ st with responses := dictSet st.responses rid m }, rid ∈ st.events)
  | none => (st, false)

/-- `DockerLSPClient._handle_message` (docker_lsp_client.py lines
247-295): a message is treated as a response only when it carries BOTH an
`id` and a `result` key; everything else (including an `id`+`error`
message) falls through to the notification/logging branches and changes
no pending state. -/
def docker_handle_message (st : PendingState) (m : RpcMessage) :
    PendingState × Bool :=
  match m.msgId, m.result with
  | some rid, some _ =>
    ({ st with responses := dictSet st.responses rid m }, rid ∈ st.events)
  | _, _ => (st, false)

/-- Outcome observed by the caller of `_send_request`: the awaited event
fired and a value was returned, or the await expired. -/
inductive CallOutcome where
  | answered (v : Option String)
  | timedOut
deriving DecidableEq, Repr

/-- Round trip of one request in the standalone client: the caller
registers an event for `rid`, the reader loop handles the (timely)
response message `m`, and the caller wakes iff the event was set; the
standalone `_send_request` (lines 246-253) then pops the response and
maps an `error` response to `None`. -/
def standalone_request_roundtrip (rid : Nat) (m : RpcMessage) : CallOutcome :=
  let st0 : PendingState := { responses := [], events := [rid] }
  let h := standalone_handle_message st0 m
  if h.2 then
    match dictGet h.1.responses rid with
    | some resp => .answered (if resp.error.isSome then none else resp.result)
    | none => .answered none
  else .timedOut

/-- Round trip of one request in the container-exec client: as above but
with `DockerLSPClient._handle_message` delivering and `_send_request`
(lines 406-414) returning `response.get("result")`. -/
def docker_request_roundtrip (rid : Nat) (m : RpcMessage) : CallOutcome :=
  let st0 : PendingState := { responses := [], events := [rid] }
  let h := docker_handle_message st0 m
  if h.2 then
    match dictGet h.1.responses rid with
    | some resp => .answered resp.result
    | none => .answered none
  else .timedOut

/-! ### Claim C3 -/

/-- C3 counterexample: a JSON-RPC error response (id present, `error`
present, no `result`) for a pending request is not delivered by the
container-exec client's `_handle_message`; the caller's await never fires
and the request ends in a timeout, contradicting the claim for that
variant. -/
theorem C3_counterexample :
    (RpcMessage.mk (some 1) none (some "boom") none).msgId.isSome = true
    ∧ (RpcMessage.mk (some 1) none (some "boom") none).error.isSome = true
    ∧ docker_handle_message { responses := [], events := [1] }
        (RpcMessage.mk (some 1) none (some "boom") none)
        = ({ responses := [], events := [1] }, false)
    ∧ docker_request_roundtrip 1 (RpcMessage.mk (some 1) none (some "boom") none)
        = .timedOut := by
  refine ⟨rfl, rfl, rfl, rfl⟩

/-- C3 (amended): the standalone client delivers every id-carrying
message to the pending map, wakes the caller exactly when the slot is
still registered, and surfaces an error response to the caller (as a
`None` answer) instead of letting it time out; the container-exec client
behaves this way only for messages that also carry a `result` key — an
error response is ignored there and its caller times out.  In both
variants a message whose slot is gone wakes nobody. -/
theorem C3_delivery_amended (st : PendingState) (m : RpcMessage) (rid : Nat) :
    (m.msgId = some rid →
      standalone_handle_message st m
        = ({ st with responses := dictSet st.responses rid m }, decide (rid ∈ st.events)))
    ∧ (m.msgId = some rid →
      standalone_request_roundtrip rid m
        = .answered (if m.error.isSome then none else m.result))
    ∧ (m.msgId = some rid → m.result.isSome →
      docker_handle_message st m
        = ({ st with responses := dictSet st.responses rid m }, decide (rid ∈ st.events)))
    ∧ (m.msgId = some rid → m.result = none →
      docker_handle_message st m = (st, false)
        ∧ docker_request_roundtrip rid m = .timedOut)
    ∧ (m.msgId = some rid → rid ∉ st.events →
      (standalone_handle_message st m).2 = false
        ∧ (docker_handle_message st m).2 = false) := by
  obtain ⟨mid, mres, merr, mmeth⟩ := m
  refine ⟨?_, ?_, ?_, ?_, ?_⟩
  · rintro rfl
    rfl
  · rintro rfl
    simp [standalone_request_roundtrip, standalone_handle_message, dictSet, dictGet]
  · rintro rfl hres
    obtain ⟨r, rfl⟩ := Option.isSome_iff_exists.mp hres
    rfl
  · rintro rfl rfl
    exact ⟨rfl, rfl⟩
  · rintro rfl hev
    cases mres <;> simp [standalone_handle_message, docker_handle_message, hev]

/-- C3 witness: the amended theorem applied to a concrete error response
and a concrete result response. -/
theorem C3_delivery_amended_witness :
    standalone_request_roundtrip 3 (RpcMessage.mk (some 3) none (some "e") none)
        = .answered none
    ∧ docker_request_roundtrip 3 (RpcMessage.mk (some 3) none (some "e") none)
        = .timedOut :=
  ⟨by
    have h := (C3_delivery_amended { responses := [], events := [3] }
      (RpcMessage.mk (some 3) none (some "e") none) 3).2.1 rfl
    simpa using h,
   ((C3_delivery_amended { responses := [], events := [3] }
      (RpcMessage.mk (some 3) none (some "e") none) 3).2.2.2.1 rfl rfl).2⟩

/-! ## Shutdown idempotence (claim C9)

The client state tracked by `shutdown` in each variant, with the
process-related oracles (did the server exit within the grace period?
did SIGTERM suffice?) passed in explicitly.  Exceptions inside the
`try` body are swallowed by `except`/`finally`, so `shutdown` never
raises to its caller. -/

/-- The `LSPClient` fields touched by `shutdown`
(standalone_lsp_client.py lines 92-128). -/
structure StandaloneClientState where
  isRunning : Bool
  writerOpen : Bool
  processAlive : Bool
  requestId : Nat
  responses : List (Nat × RpcMessage)
  events : List Nat
deriving DecidableEq, Repr

/-- Result of one `shutdown` call on the standalone client. -/
structure StandaloneShutdownResult where
  state : StandaloneClientState
  terminateCalls : Nat
  raised : Bool
  returnedTrue : Bool
deriving DecidableEq, Repr

/-- `LSPClient.shutdown` (standalone_lsp_client.py lines 92-128):
stop the reader loop; if the writer is open, best-effort `shutdown`
request (5 s cap) then `exit` notification then close the writer; if the
process handle is present, await exit for 5 s, else SIGTERM and — if the
process survives one more second — SIGKILL; `finally` always clears the
handles and maps and returns `True`, so no exception escapes. -/
def standalone_shutdown (st : StandaloneClientState)
    (gracefulExit sigtermWorks : Bool) : StandaloneShutdownResult :=
  let st1 := { st with isRunning := false }
  let st2 := if st1.writerOpen then { st1 with writerOpen := false } else st1
  let termCalls :=
    if st2.processAlive then
      if gracefulExit then 0 else if sigtermWorks then 1 else 2
    else 0
  { state :=
      { st2 with
        processAlive := false
        writerOpen := false
        responses := []
        events := [] }
    terminateCalls := termCalls
    raised := false
    returnedTrue := true }

/-- The `DockerLSPClient` fields touched by `shutdown`
(docker_lsp_client.py lines 126-167).  `containerHandle` models
`self.container`, which the client never assigns after `__init__`. -/
structure DockerClientState where
  isRunning : Bool
  processAlive : Bool
  dockerClientOpen : Bool
  containerHandle : Bool
  requestId : Nat
  responses : List (Nat × RpcMessage)
  events : List Nat
deriving DecidableEq, Repr

/-- Result of one `shutdown` call on the container-exec client. -/
structure DockerShutdownResult where
  state : DockerClientState
  terminateCalls : Nat
  raised : Bool
deriving DecidableEq, Repr

/-- `DockerLSPClient.shutdown` (docker_lsp_client.py lines 126-167): if
the process handle is present, best-effort `shutdown`/`exit`, then always
`terminate()` and — after a 5 s grace — `kill()`; then the docker client
is closed and `self.container.kill()`/`remove()` run (raising
`AttributeError` when `container` is `None`, caught by the `except`
block); `finally` clears the handles, resets the request id and empties
the maps.  The function never raises. -/
def docker_shutdown (st : DockerClientState) (sigtermWorks : Bool) :
    DockerShutdownResult :=
  let termCalls :=
    if st.processAlive then if sigtermWorks then 1 else 2 else 0
  { state :=
      { isRunning := false
        processAlive := false
        dockerClientOpen := false
        containerHandle := false
        requestId := 0
        responses := []
        events := [] }
    terminateCalls := termCalls
    raised := false }

/-! ### Claim C9 -/

/-- C9: for both client variants, a second `shutdown` after a completed
first one is a no-op that still succeeds — the state does not change, the
server process receives no further terminate/kill signal, and no
exception reaches the caller (the standalone variant again returns
`True`). -/
theorem C9_shutdown_idempotent (s : StandaloneClientState)
    (d : DockerClientState) (g1 t1 g2 t2 t1' t2' : Bool) :
    ((standalone_shutdown (standalone_shutdown s g1 t1).state g2 t2).state
        = (standalone_shutdown s g1 t1).state
      ∧ (standalone_shutdown (standalone_shutdown s g1 t1).state g2 t2).terminateCalls = 0
      ∧ (standalone_shutdown (standalone_shutdown s g1 t1).state g2 t2).raised = false
      ∧ (standalone_shutdown (standalone_shutdown s g1 t1).state g2 t2).returnedTrue = true)
    ∧ ((docker_shutdown (docker_shutdown d t1').state t2').state
        = (docker_shutdown d t1').state
      ∧ (docker_shutdown (docker_shutdown d t1').state t2').terminateCalls = 0
      ∧ (docker_shutdown (docker_shutdown d t1').state t2').raised = false) := by
  by_cases hw : s.writerOpen <;>
    simp [standalone_shutdown, docker_shutdown, hw]

/-! ## Call-graph linking and persisted relationship rows (claim C5)

Symbols are identified by their object identity (a `Nat` id); the mutable
`calling_symbols`/`called_symbols` lists of all symbols form one global
map from id to its two lists. -/

/-- The `calling_symbols`/`called_symbols` lists of one `SymbolModel`. -/
structure SymLinks where
  calling : List Nat
  called : List Nat
deriving DecidableEq, Repr

/-- The linking state of all symbols, indexed by symbol identity. -/
def CallGraph : Type := Nat → SymLinks

/-- Freshly constructed symbols: both lists empty
(models.py lines 85-87, `field(default_factory=list)`). -/
def emptyCallGraph : CallGraph := fun _ => ⟨[], []⟩

/-- Point update of the global linking state. -/
def graphUpd (g : CallGraph) (i : Nat) (v : SymLinks) : CallGraph :=
  fun j => if j = i then v else g j

/-- `SymbolModel.linking_call_symbols` (models.py lines 97-103), invoked
as `callee.linking_call_symbols(caller)`: when the target differs from
`self`, is not yet in `self.calling_symbols` and `self` is not yet in
`target.called_symbols`, append `target` to `self.calling_symbols` and
`self` to `target.called_symbols`; otherwise do nothing. -/
def linking_call_symbols (g : CallGraph) (selfId target : Nat) : CallGraph :=
  if target ≠ selfId ∧ target ∉ (g selfId).calling ∧ selfId ∉ (g target).called then
    let g1 := graphUpd g selfId
      { g selfId with calling := (g selfId).calling ++ [target] }
    graphUpd g1 target { g1 target with called := (g1 target).called ++ [selfId] }
  else g

/-- A whole extraction run's linking calls, applied in order from the
all-empty initial state. -/
def applyLinks (ops : List (Nat × Nat)) : CallGraph :=
  ops.foldl (fun g p => linking_call_symbols g p.1 p.2) emptyCallGraph

/-- The linking invariant: no symbol lists itself, no duplicates in
either list, and the two lists mirror each other. -/
def GraphInv (g : CallGraph) : Prop :=
  (∀ x, x ∉ (g x).calling ∧ x ∉ (g x).called)
  ∧ (∀ x, (g x).calling.Nodup ∧ (g x).called.Nodup)
  ∧ (∀ x y, y ∈ (g x).calling ↔ x ∈ (g y).called)

theorem graphInv_empty : GraphInv emptyCallGraph := by
  refine ⟨fun x => ⟨?_, ?_⟩, fun x => ⟨?_, ?_⟩, fun x y => ?_⟩ <;>
    simp [emptyCallGraph]

theorem linking_components {g : CallGraph} {a b : Nat} (hne : b ≠ a)
    (hnotc : b ∉ (g a).calling) (hnotd : a ∉ (g b).called) :
    (∀ x, (linking_call_symbols g a b x).calling
        = if x = a then (g a).calling ++ [b] else (g x).calling)
    ∧ (∀ x, (linking_call_symbols g a b x).called
        = if x = b then (g b).called ++ [a] else (g x).called) := by
  rw [linking_call_symbols, if_pos ⟨hne, hnotc, hnotd⟩]
  constructor <;> intro x <;>
    by_cases hxb : x = b <;> by_cases hxa : x = a <;>
      simp_all [graphUpd]

theorem graphInv_linking {g : CallGraph} (h : GraphInv g) (a b : Nat) :
    GraphInv (linking_call_symbols g a b) := by
  obtain ⟨hself, hnodup, hmirror⟩ := h
  by_cases hcond : b ≠ a ∧ b ∉ (g a).calling ∧ a ∉ (g b).called
  · obtain ⟨hne, hnotc, hnotd⟩ := hcond
    obtain ⟨hc, hd⟩ := linking_components (g := g) hne hnotc hnotd
    refine ⟨fun x => ⟨?_, ?_⟩, fun x => ⟨?_, ?_⟩, fun x y => ?_⟩
    · rw [hc]
      split_ifs with hxa
      · rw [hxa]
        simp only [List.mem_append, List.mem_singleton]
        rintro (hmem | hab)
        · exact (hself a).1 hmem
        · exact hne hab.symm
      · exact (hself x).1
    · rw [hd]
      split_ifs with hxb
      · rw [hxb]
        simp only [List.mem_append, List.mem_singleton]
        rintro (hmem | hba)
        · exact (hself b).2 hmem
        · exact hne hba
      · exact (hself x).2
    · rw [hc]
      split_ifs with hxa
      · simpa [List.nodup_append] using ⟨(hnodup a).1, hnotc⟩
      · exact (hnodup x).1
    · rw [hd]
      split_ifs with hxb
      · simpa [List.nodup_append] using ⟨(hnodup b).2, hnotd⟩
      · exact (hnodup x).2
    · rw [hc, hd]
      split_ifs with hxa hyb hyb
      · rw [hxa, hyb]
        simp
      · rw [hxa]
        rw [List.mem_append, List.mem_singleton]
        constructor
        · rintro (hmem | hyb2)
          · exact (hmirror a y).mp hmem
          · exact absurd hyb2 hyb
        · intro hx
          exact Or.inl ((hmirror a y).mpr hx)
      · rw [hyb]
        rw [List.mem_append, List.mem_singleton]
        constructor
        · intro hmem
          exact Or.inl ((hmirror x b).mp hmem)
        · rintro (hmem | hxa2)
          · exact (hmirror x b).mpr hmem
          · exact absurd hxa2 hxa
      · exact hmirror x y
  · rw [linking_call_symbols, if_neg hcond]
    exact ⟨hself, hnodup, hmirror⟩

theorem graphInv_applyLinks (ops : List (Nat × Nat)) : GraphInv (applyLinks ops) := by
  rw [applyLinks]
  have : ∀ g, GraphInv g → GraphInv (ops.foldl (fun g p => linking_call_symbols g p.1 p.2) g) := by
    induction ops with
    | nil => exact fun g h => h
    | cons p rest ih =>
      intro g h
      exact ih _ (graphInv_linking h p.1 p.2)
  exact this emptyCallGraph graphInv_empty

theorem linking_idem (g : CallGraph) (a b : Nat) :
    linking_call_symbols (linking_call_symbols g a b) a b
      = linking_call_symbols g a b := by
  by_cases hcond : b ≠ a ∧ b ∉ (g a).calling ∧ a ∉ (g b).called
  · obtain ⟨hne, hnotc, hnotd⟩ := hcond
    obtain ⟨hc, _⟩ := linking_components (g := g) hne hnotc hnotd
    have hb : b ∈ (linking_call_symbols g a b a).calling := by
      rw [hc a, if_pos rfl]
      simp
    have h2 : ¬(b ≠ a ∧ b ∉ (linking_call_symbols g a b a).calling
        ∧ a ∉ (linking_call_symbols g a b b).called) :=
      fun h => h.2.1 hb
    conv_lhs => rw [linking_call_symbols]
    rw [if_neg h2]
  · have h1 : linking_call_symbols g a b = g := by
      rw [linking_call_symbols, if_neg hcond]
    rw [h1, h1]

/-- Modelled from the spec: the `SymbolRelationship` table schema lives in
`src/storage/db_creation.sql`, which is not in the tree; the spec declares
CallEdge rows `unique` and persisted edges `deduplicated`, so
`INSERT OR IGNORE INTO SymbolRelationship (caller_id, called_id)`
(database.py lines 152, 159) is a no-op when the `(caller_id, called_id)`
pair is already present. -/
def insertOrIgnoreRow (rows : List (Nat × Nat)) (r : Nat × Nat) : List (Nat × Nat) :=
  if r ∈ rows then rows else rows ++ [r]

/-- `insert_relationships_for_symbol` (database.py lines 142-163): for a
symbol with a database id, insert `(caller_id := s, called_id := c)` for
every `c` in its `called_symbols`, then `(caller_id := c, called_id := s)`
for every `c` in its `calling_symbols`.  Database ids are modelled as the
symbol ids themselves (every inserted symbol gets exactly one id via
`symbol_to_dbid`). -/
def insert_relationships_for_symbol (g : CallGraph) (s : Nat)
    (rows : List (Nat × Nat)) : List (Nat × Nat) :=
  let r1 := (g s).called.foldl (fun acc c => insertOrIgnoreRow acc (s, c)) rows
  (g s).calling.foldl (fun acc c => insertOrIgnoreRow acc (c, s)) r1

/-- `insert_symbol_relationships`/`traverse_and_insert` (database.py lines
124-165): relationship rows inserted for every symbol of the project, in
traversal order, starting from an empty table. -/
def insert_symbol_relationships (g : CallGraph) (allSyms : List Nat) :
    List (Nat × Nat) :=
  allSyms.foldl (fun rows s => insert_relationships_for_symbol g s rows) []

theorem mem_insertOrIgnoreRow {rows : List (Nat × Nat)} {r x : Nat × Nat}
    (h : x ∈ insertOrIgnoreRow rows r) : x ∈ rows ∨ x = r := by
  rw [insertOrIgnoreRow] at h
  split at h
  · exact Or.inl h
  · rcases List.mem_append.mp h with h' | h'
    · exact Or.inl h'
    · exact Or.inr (List.mem_singleton.mp h')

theorem nodup_insertOrIgnoreRow {rows : List (Nat × Nat)} {r : Nat × Nat}
    (h : rows.Nodup) : (insertOrIgnoreRow rows r).Nodup := by
  rw [insertOrIgnoreRow]
  split
  · exact h
  · next hr => simp [List.nodup_append, h, hr]

theorem mem_foldl_insertOrIgnoreRow {α : Type} (f : α → Nat × Nat)
    (l : List α) (rows : List (Nat × Nat)) (x : Nat × Nat)
    (h : x ∈ l.foldl (fun acc c => insertOrIgnoreRow acc (f c)) rows) :
    x ∈ rows ∨ ∃ c ∈ l, x = f c := by
  induction l generalizing rows with
  | nil => exact Or.inl h
  | cons c rest ih =>
    rcases ih (insertOrIgnoreRow rows (f c)) h with h' | ⟨c', hc', hx⟩
    · rcases mem_insertOrIgnoreRow h' with h'' | h''
      · exact Or.inl h''
      · exact Or.inr ⟨c, List.mem_cons_self c rest, h''⟩
    · exact Or.inr ⟨c', List.mem_cons_of_mem c hc', hx⟩

theorem nodup_foldl_insertOrIgnoreRow {α : Type} (f : α → Nat × Nat)
    (l : List α) (rows : List (Nat × Nat)) (h : rows.Nodup) :
    (l.foldl (fun acc c => insertOrIgnoreRow acc (f c)) rows).Nodup := by
  induction l generalizing rows with
  | nil => exact h
  | cons c rest ih => exact ih _ (nodup_insertOrIgnoreRow h)

theorem mem_insert_relationships_for_symbol {g : CallGraph} {s : Nat}
    {rows : List (Nat × Nat)} {x : Nat × Nat}
    (h : x ∈ insert_relationships_for_symbol g s rows) :
    x ∈ rows ∨ (∃ c ∈ (g s).called, x = (s, c))
      ∨ (∃ c ∈ (g s).calling, x = (c, s)) := by
  rw [insert_relationships_for_symbol] at h
  rcases mem_foldl_insertOrIgnoreRow _ _ _ _ h with h1 | h1
  · rcases mem_foldl_insertOrIgnoreRow _ _ _ _ h1 with h2 | h2
    · exact Or.inl h2
    · exact Or.inr (Or.inl h2)
  · exact Or.inr (Or.inr h1)

theorem no_self_insert_symbol_relationships {g : CallGraph}
    (hg : ∀ x, x ∉ (g x).calling ∧ x ∉ (g x).called)
    (allSyms : List Nat) (x : Nat) :
    (x, x) ∉ insert_symbol_relationships g allSyms := by
  rw [insert_symbol_relationships]
  have key : ∀ (l : List Nat) (rows : List (Nat × Nat)),
      (x, x) ∉ rows →
      (x, x) ∉ l.foldl (fun rows s => insert_relationships_for_symbol g s rows) rows := by
    intro l
    induction l with
    | nil => exact fun rows h => h
    | cons s rest ih =>
      intro rows hrows
      refine ih _ (fun hmem => ?_)
      rcases mem_insert_relationships_for_symbol hmem with h1 | ⟨c, hc, hx⟩ | ⟨c, hc, hx⟩
      · exact hrows h1
      · have hx1 : x = s := congrArg Prod.fst hx
        have hx2 : x = c := congrArg Prod.snd hx
        rw [← hx1, ← hx2] at hc
        exact (hg x).2 hc
      · have hx1 : x = c := congrArg Prod.fst hx
        have hx2 : x = s := congrArg Prod.snd hx
        rw [← hx1, ← hx2] at hc
        exact (hg x).1 hc
  exact key allSyms [] (by simp)

theorem nodup_insert_symbol_relationships (g : CallGraph) (allSyms : List Nat) :
    (insert_symbol_relationships g allSyms).Nodup := by
  rw [insert_symbol_relationships]
  have key : ∀ (l : List Nat) (rows : List (Nat × Nat)), rows.Nodup →
      (l.foldl (fun rows s => insert_relationships_for_symbol g s rows) rows).Nodup := by
    intro l
    induction l with
    | nil => exact fun rows h => h
    | cons s rest ih =>
      intro rows hrows
      refine ih _ ?_
      simp only [insert_relationships_for_symbol]
      exact nodup_foldl_insertOrIgnoreRow _ _ _
        (nodup_foldl_insertOrIgnoreRow _ _ _ hrows)
  exact key allSyms [] (by simp)

/-! ### Claim C5 -/

/-- C5: after any sequence of linking calls starting from freshly
constructed symbols, no symbol's `calling_symbols`/`called_symbols` lists
contain the symbol itself (no self edge) and neither list contains
duplicates; linking the same (callee, caller) pair a second time leaves
the in-memory state unchanged; and the persisted `SymbolRelationship`
rows contain no `(x, x)` row and each `(caller_id, called_id)` pair at
most once. -/
theorem C5_call_edge_invariants (ops : List (Nat × Nat)) (allSyms : List Nat)
    (a b x : Nat) :
    (x ∉ ((applyLinks ops) x).calling ∧ x ∉ ((applyLinks ops) x).called)
    ∧ (((applyLinks ops) x).calling.Nodup ∧ ((applyLinks ops) x).called.Nodup)
    ∧ linking_call_symbols (linking_call_symbols (applyLinks ops) a b) a b
        = linking_call_symbols (applyLinks ops) a b
    ∧ (x, x) ∉ insert_symbol_relationships (applyLinks ops) allSyms
    ∧ (insert_symbol_relationships (applyLinks ops) allSyms).Nodup := by
  obtain ⟨hself, hnodup, _⟩ := graphInv_applyLinks ops
  exact ⟨hself x, hnodup x, linking_idem _ a b,
    no_self_insert_symbol_relationships hself allSyms x,
    nodup_insert_symbol_relationships _ allSyms⟩

/-! ## Most-specific enclosing symbol (claim C6)

`FileModel.find_symbol_within_range` keeps the symbols whose `range`
contains the reference range and, when several remain, sorts them by the
key `(end.line - start.line, end.character - start.character)` (Python
tuple order, i.e. lexicographic) and returns the first. -/

/-- The fields of a `SymbolModel` used by reference matching: its object
identity, `range` and `selectionRange`. -/
structure MSym where
  symId : Nat
  range : Option LSPRange
  selectionRange : Option LSPRange
deriving DecidableEq, Repr

/-- Python sort key of models.py lines 191-194.  The `none` default is
never consulted: every sorted symbol passed the `symbol.range and
symbol.range.contains(...)` filter. -/
def symKey (s : MSym) : Int × Int :=
  match s.range with
  | some r => ((r.stop.line : Int) - r.start.line,
               (r.stop.character : Int) - r.start.character)
  | none => (0, 0)

/-- Python tuple comparison `key(s) <= key(t)` on the two-component sort
key: lexicographic on (line span, character span). -/
def symKeyLe (s t : MSym) : Prop :=
  (symKey s).1 < (symKey t).1
  ∨ ((symKey s).1 = (symKey t).1 ∧ (symKey s).2 ≤ (symKey t).2)

instance : DecidableRel symKeyLe := fun s t => by
  unfold symKeyLe
  infer_instance

instance : IsTotal MSym symKeyLe :=
  ⟨fun a b => by
    unfold symKeyLe
    omega⟩

instance : IsTrans MSym symKeyLe :=
  ⟨fun a b c hab hbc => by
    unfold symKeyLe at *
    omega⟩

instance : IsRefl MSym symKeyLe :=
  ⟨fun a => by
    unfold symKeyLe
    omega⟩

/-- The containment test of models.py line 181:
`symbol.range and symbol.range.contains(ref_range)`. -/
def symContains (refRange : LSPRange) (s : MSym) : Bool :=
  match s.range with
  | some r => r.containsRange refRange
  | none => false

/-- `FileModel.find_symbol_within_range` (models.py lines 175-199):
collect the symbols whose `range` contains the reference range; return
`None` when there are none (`if not containing_symbols`); sort by the
span key when there are several; return the first. -/
def find_symbol_within_range (symbols : List MSym) (refRange : LSPRange) :
    Option MSym :=
  let containing := symbols.filter (symContains refRange)
  if containing.isEmpty then none
  else if containing.length > 1 then (List.insertionSort symKeyLe containing).head?
  else containing.head?

/-- The per-reference step of `LSP_Extractor._match_reference_to_symbol`
(lsp_extractor.py lines 274-280) after the reference's file has been
resolved: look up the most specific enclosing symbol; do nothing when
there is none or when it is one of the callee's `child_symbols`;
otherwise link `callee.linking_call_symbols(enclosing)`. -/
def match_reference_step (g : CallGraph) (calleeId : Nat) (childIds : List Nat)
    (fileSymbols : List MSym) (refRange : LSPRange) : CallGraph :=
  match find_symbol_within_range fileSymbols refRange with
  | none => g
  | some caller =>
    if caller.symId ∈ childIds then g
    else linking_call_symbols g calleeId caller.symId

theorem find_symbol_within_range_none_iff (symbols : List MSym) (refRange : LSPRange) :
    find_symbol_within_range symbols refRange = none
      ↔ ∀ s ∈ symbols, symContains refRange s = false := by
  simp only [find_symbol_within_range]
  rcases hf : symbols.filter (symContains refRange) with _ | ⟨c, rest⟩
  · simp only [List.isEmpty_nil, if_pos, true_iff]
    intro s hs
    by_contra hcon
    have : s ∈ symbols.filter (symContains refRange) :=
      List.mem_filter.mpr ⟨hs, by simpa using hcon⟩
    rw [hf] at this
    exact absurd this (List.not_mem_nil s)
  · have hc : c ∈ symbols.filter (symContains refRange) := by
      rw [hf]
      exact List.mem_cons_self c rest
    simp only [List.isEmpty_cons, if_neg]
    constructor
    · intro hnone
      exfalso
      by_cases hlen : (c :: rest).length > 1
      · rw [if_pos hlen] at hnone
        have hperm := List.perm_insertionSort symKeyLe (c :: rest)
        rcases hsort : List.insertionSort symKeyLe (c :: rest) with _ | ⟨y, ys⟩
        · have := hperm.length_eq
          rw [hsort] at this
          simp at this
        · rw [hsort] at hnone
          simp at hnone
      · rw [if_neg hlen] at hnone
        simp at hnone
    · intro hall
      exact absurd ((List.mem_filter.mp hc).2) (by simp [hall c (List.mem_filter.mp hc).1])

theorem find_symbol_within_range_spec (symbols : List MSym) (refRange : LSPRange)
    (c : MSym) (h : find_symbol_within_range symbols refRange = some c) :
    c ∈ symbols ∧ symContains refRange c = true
      ∧ ∀ s ∈ symbols, symContains refRange s = true → symKeyLe c s := by
  simp only [find_symbol_within_range] at h
  rcases hf : symbols.filter (symContains refRange) with _ | ⟨c0, rest⟩
  · rw [hf] at h
    simp at h
  · rw [hf] at h
    simp only [List.isEmpty_cons, if_neg, Bool.false_eq_true, if_false] at h
    have hmem_filter : ∀ s, s ∈ symbols ∧ symContains refRange s = true
        ↔ s ∈ c0 :: rest := by
      intro s
      rw [← hf, List.mem_filter]
    by_cases hlen : (c0 :: rest).length > 1
    · rw [if_pos hlen] at h
      rcases hsort : List.insertionSort symKeyLe (c0 :: rest) with _ | ⟨y, ys⟩
      · have := (List.perm_insertionSort symKeyLe (c0 :: rest)).length_eq
        rw [hsort] at this
        simp at this
      · rw [hsort] at h
        have hcy : c = y := by simpa using h.symm
        subst hcy
        have hsorted := List.sorted_insertionSort symKeyLe (c0 :: rest)
        rw [hsort] at hsorted
        have hcmem : c ∈ c0 :: rest := by
          have : c ∈ List.insertionSort symKeyLe (c0 :: rest) := by
            rw [hsort]
            exact List.mem_cons_self c ys
          exact (List.perm_insertionSort symKeyLe (c0 :: rest)).subset this
        obtain ⟨hcs, hcc⟩ := (hmem_filter c).mpr hcmem
        refine ⟨hcs, hcc, fun s hs hcont => ?_⟩
        have hsmem : s ∈ c0 :: rest := (hmem_filter s).mp ⟨hs, hcont⟩
        have : s ∈ List.insertionSort symKeyLe (c0 :: rest) :=
          (List.perm_insertionSort symKeyLe (c0 :: rest)).symm.subset hsmem
        rw [hsort] at this
        rcases List.mem_cons.mp this with hsy | hsy
        · rw [hsy]
          exact refl_of symKeyLe c
        · exact List.rel_of_sorted_cons hsorted s hsy
    · rw [if_neg hlen] at h
      have hcc0 : c = c0 := by simpa using h.symm
      subst hcc0
      have hrest : rest = [] := by
        simp only [List.length_cons, gt_iff_lt, not_lt] at hlen
        cases rest with
        | nil => rfl
        | cons a l => simp at hlen
      obtain ⟨hcs, hcont⟩ := (hmem_filter c).mpr (List.mem_cons_self c rest)
      refine ⟨hcs, hcont, fun s hs hconts => ?_⟩
      have hsmem : s ∈ c :: rest := (hmem_filter s).mp ⟨hs, hconts⟩
      rw [hrest] at hsmem
      rcases List.mem_cons.mp hsmem with hsy | hsy
      · rw [hsy]
        exact refl_of symKeyLe c
      · exact absurd hsy (List.not_mem_nil s)

/-! ### Claim C6 -/

/-- C6: a caller is chosen only among the symbols of the resolved file
whose `range` contains the reference range, it minimises the code's span
key (line span, then character span — the "smallest range" of the claim)
over all such symbols, and when no symbol of the file contains the
reference range nothing is linked: the call-graph state is unchanged. -/
theorem C6_most_specific_caller (symbols : List MSym) (refRange : LSPRange)
    (g : CallGraph) (calleeId : Nat) (childIds : List Nat) (c : MSym) :
    (find_symbol_within_range symbols refRange = some c →
      c ∈ symbols ∧ symContains refRange c = true
        ∧ ∀ s ∈ symbols, symContains refRange s = true → symKeyLe c s)
    ∧ ((∀ s ∈ symbols, symContains refRange s = false) →
      match_reference_step g calleeId childIds symbols refRange = g)
    ∧ (match_reference_step g calleeId childIds symbols refRange ≠ g →
      ∃ caller, find_symbol_within_range symbols refRange = some caller
        ∧ caller.symId ∉ childIds
        ∧ match_reference_step g calleeId childIds symbols refRange
            = linking_call_symbols g calleeId caller.symId) := by
  refine ⟨find_symbol_within_range_spec symbols refRange c, ?_, ?_⟩
  · intro hnone
    rw [match_reference_step,
      (find_symbol_within_range_none_iff symbols refRange).mpr hnone]
  · intro hchanged
    rw [match_reference_step] at hchanged ⊢
    cases hfind : find_symbol_within_range symbols refRange with
    | none =>
      rw [hfind] at hchanged
      exact absurd rfl hchanged
    | some caller =>
      rw [hfind] at hchanged
      by_cases hchild : caller.symId ∈ childIds
      · exact absurd (by simp [hchild]) hchanged
      · exact ⟨caller, rfl, hchild, by simp [hchild]⟩

/-- C6 witness: the claim theorem applied to a concrete file with a class
containing a method, the reference landing inside the method. -/
theorem C6_most_specific_caller_witness :
    let cls : MSym := ⟨1, some ⟨⟨0, 0⟩, ⟨10, 0⟩⟩, none⟩
    let meth : MSym := ⟨2, some ⟨⟨2, 4⟩, ⟨4, 0⟩⟩, none⟩
    let ref : LSPRange := ⟨⟨3, 8⟩, ⟨3, 9⟩⟩
    meth ∈ [cls, meth] ∧ symContains ref meth = true
      ∧ ∀ s ∈ [cls, meth], symContains ref s = true → symKeyLe meth s :=
  (C6_most_specific_caller [⟨1, some ⟨⟨0, 0⟩, ⟨10, 0⟩⟩, none⟩,
      ⟨2, some ⟨⟨2, 4⟩, ⟨4, 0⟩⟩, none⟩] ⟨⟨3, 8⟩, ⟨3, 9⟩⟩
      emptyCallGraph 0 [] ⟨2, some ⟨⟨2, 4⟩, ⟨4, 0⟩⟩, none⟩).1
    (by simp [find_symbol_within_range, symContains, LSPRange.containsRange,
      List.insertionSort, List.orderedInsert, symKeyLe, symKey])

/-! ## The definition filter (claim C1)

`LSP_Extractor._is_definition` inspects the `textDocument/definition`
response; `extract_and_filter_symbols` iterates over the extracted
symbols and evaluates it — but the removal call `file.remove_symbol`
(lsp_extractor.py line 150) is commented out. -/

/-- One item of a definition response as inspected by `_is_definition`: a
dict whose `selectionRange` value (decoded by `json_to_range`) is `none`
when the key is absent or undecodable. -/
structure DefItem where
  selRange : Option LSPRange
deriving DecidableEq, Repr

/-- The shapes of `get_definition`'s return value that `_is_definition`
distinguishes: `None` (request failed, timed out, or returned nothing), a
single dict, or a list of dicts. -/
inductive DefResponse : Type where
  | failed
  | single (item : DefItem)
  | listResp (items : List DefItem)
deriving DecidableEq, Repr

/-- `LSP_Extractor._is_definition` (lsp_extractor.py lines 103-136):
`False` on a `None` result; for a dict, `True` iff the symbol has a
selection range and the item's decoded `selectionRange` equals it; for a
non-empty list, `True` iff some item matches that way; `False`
otherwise. -/
def is_definition (symbolSelRange : Option LSPRange) (resp : DefResponse) : Bool :=
  match resp with
  | .failed => false
  | .single item =>
    match item.selRange, symbolSelRange with
    | some dr, some sr => dr == sr
    | _, _ => false
  | .listResp items =>
    items.any (fun item =>
      match item.selRange, symbolSelRange with
      | some dr, some sr => dr == sr
      | _, _ => false)

/-- The per-file retention loop of
`LSP_Extractor.extract_and_filter_symbols` (lsp_extractor.py lines
147-151): for every extracted symbol the definition check runs, but the
`if not _is_definition` branch only logs — `file.remove_symbol` is
commented out — so `file.symbols` is returned unchanged. -/
def extract_and_filter_file (symbols : List MSym) (isDef : MSym → Bool) :
    List MSym :=
  symbols.foldl (fun kept s => if !(isDef s) then kept else kept) symbols

/-- Claim-side retention (claim C1 wording): keep a symbol iff its
definition check succeeds. -/
def claim_filter_file (symbols : List MSym) (isDef : MSym → Bool) : List MSym :=
  symbols.filter isDef

theorem extract_and_filter_file_eq_id (symbols : List MSym) (isDef : MSym → Bool) :
    extract_and_filter_file symbols isDef = symbols := by
  rw [extract_and_filter_file]
  have key : ∀ (l init : List MSym),
      l.foldl (fun kept s => if !(isDef s) then kept else kept) init = init := by
    intro l
    induction l with
    | nil => intro init; rfl
    | cons a t ih =>
      intro init
      rw [List.foldl_cons, ite_self]
      exact ih init
  exact key symbols symbols

/-! ### Claim C1 -/

/-- C1 (code bug): the extraction pipeline retains every extracted symbol
regardless of the definition check, because the removal call is commented
out.  At the spec's own S3 input — a symbol whose `selectionRange` is
`(3:4)-(3:5)` while the definition response points at `(5:0)-(5:1)` — the
check correctly fails, yet the symbol stays in the file's symbol set,
where the claim (and the function's docstring) require it to be
dropped. -/
theorem C1_definition_filter_code_bug :
    (∀ (symbols : List MSym) (isDef : MSym → Bool),
      extract_and_filter_file symbols isDef = symbols)
    ∧ is_definition (some ⟨⟨3, 4⟩, ⟨3, 5⟩⟩)
        (.listResp [⟨some ⟨⟨5, 0⟩, ⟨5, 1⟩⟩⟩]) = false
    ∧ extract_and_filter_file [⟨1, some ⟨⟨3, 0⟩, ⟨6, 0⟩⟩, some ⟨⟨3, 4⟩, ⟨3, 5⟩⟩⟩]
        (fun s => is_definition s.selectionRange
          (.listResp [⟨some ⟨⟨5, 0⟩, ⟨5, 1⟩⟩⟩]))
        = [⟨1, some ⟨⟨3, 0⟩, ⟨6, 0⟩⟩, some ⟨⟨3, 4⟩, ⟨3, 5⟩⟩⟩]
    ∧ claim_filter_file [⟨1, some ⟨⟨3, 0⟩, ⟨6, 0⟩⟩, some ⟨⟨3, 4⟩, ⟨3, 5⟩⟩⟩]
        (fun s => is_definition s.selectionRange
          (.listResp [⟨some ⟨⟨5, 0⟩, ⟨5, 1⟩⟩⟩]))
        = [] := by
  refine ⟨extract_and_filter_file_eq_id, by decide, ?_, by decide⟩
  exact extract_and_filter_file_eq_id _ _

/-! ## Folder trees and symbol aggregation (claim C10)

`FolderModel.get_all_files` and `FolderModel.get_all_symbols` of
models.py, over a folder tree whose files carry symbol identities. -/

/-- The fields of a `FileModel` needed here: its path and the identities
of its symbols. -/
structure FileRec where
  path : String
  symbols : List Nat
deriving DecidableEq, Repr

/-- A `FolderModel`: name, direct files, subfolders. -/
inductive FolderT : Type where
  | mk (name : String) (files : List FileRec) (subfolders : List FolderT)

mutual
/-- `FolderModel.get_all_files` (models.py lines 282-287): the folder's
own files followed by, for each subfolder in order, its recursive
files. -/
def get_all_files : FolderT → List FileRec
  | .mk _ files subs => files ++ getAllFilesOfList subs

/-- The `for subfolder in self.subfolders: all_files.extend(...)` loop of
`get_all_files`. -/
def getAllFilesOfList : List FolderT → List FileRec
  | [] => []
  | F :: rest => get_all_files F ++ getAllFilesOfList rest
end

mutual
/-- `FolderModel.get_all_symbols` (models.py lines 303-310): extend an
empty list with the symbols of every file of `get_all_files` (which
already recurses), THEN additionally extend with every subfolder's
recursive `get_all_symbols`. -/
def get_all_symbols : FolderT → List Nat
  | .mk n files subs =>
    (get_all_files (.mk n files subs)).foldl (fun acc f => acc ++ f.symbols) []
      ++ getAllSymbolsOfList subs

/-- The `for subfolder in self.subfolders: all_symbols.extend(...)` loop
of `get_all_symbols`. -/
def getAllSymbolsOfList : List FolderT → List Nat
  | [] => []
  | F :: rest => get_all_symbols F ++ getAllSymbolsOfList rest
end

mutual
/-- Spec-side: every file of the tree paired with its depth below the
queried folder (0 = direct file). -/
def filesWithDepth : FolderT → List (Nat × FileRec)
  | .mk _ files subs =>
    files.map (fun f => (0, f)) ++ filesWithDepthOfList subs

/-- `filesWithDepth` over a subfolder list, depths shifted by one. -/
def filesWithDepthOfList : List FolderT → List (Nat × FileRec)
  | [] => []
  | F :: rest =>
    (filesWithDepth F).map (fun p => (p.1 + 1, p.2)) ++ filesWithDepthOfList rest
end

mutual
theorem get_all_files_eq_fwd (F : FolderT) :
    get_all_files F = (filesWithDepth F).map Prod.snd := by
  match F with
  | .mk n files subs =>
    rw [get_all_files, filesWithDepth, getAllFilesOfList_eq_fwd subs]
    simp [List.map_map, Function.comp_def]

theorem getAllFilesOfList_eq_fwd (l : List FolderT) :
    getAllFilesOfList l = (filesWithDepthOfList l).map Prod.snd := by
  match l with
  | [] => rfl
  | F :: rest =>
    rw [getAllFilesOfList, filesWithDepthOfList, get_all_files_eq_fwd F,
      getAllFilesOfList_eq_fwd rest]
    simp [List.map_map, Function.comp_def]
end

theorem foldl_extend_symbols (l : List FileRec) (init : List Nat) :
    l.foldl (fun acc f => acc ++ f.symbols) init
      = init ++ l.flatMap (fun f => f.symbols) := by
  induction l generalizing init with
  | nil => simp
  | cons a t ih =>
    rw [List.foldl_cons, ih, List.flatMap_cons, List.append_assoc]

theorem sum_map_add_nat {α : Type} (l : List α) (f g : α → Nat) :
    (l.map (fun x => f x + g x)).sum = (l.map f).sum + (l.map g).sum := by
  induction l with
  | nil => rfl
  | cons a t ih =>
    simp [ih]
    omega

mutual
theorem count_get_all_symbols (c : Nat) (F : FolderT) :
    (get_all_symbols F).count c
      = ((filesWithDepth F).map (fun p => (p.1 + 1) * p.2.symbols.count c)).sum := by
  match F with
  | .mk n files subs =>
    rw [get_all_symbols, List.count_append, foldl_extend_symbols, List.nil_append,
      get_all_files_eq_fwd, count_getAllSymbolsOfList c subs, filesWithDepth]
    simp only [List.map_append, List.map_map, List.count_append, List.count_flatMap,
      List.sum_append, Function.comp_def, add_mul, one_mul, zero_mul, Nat.zero_add]
    rw [sum_map_add_nat (filesWithDepthOfList subs)
      (fun p => p.1 * p.2.symbols.count c) (fun p => p.2.symbols.count c)]
    ring

theorem count_getAllSymbolsOfList (c : Nat) (l : List FolderT) :
    (getAllSymbolsOfList l).count c
      = ((filesWithDepthOfList l).map (fun p => p.1 * p.2.symbols.count c)).sum := by
  match l with
  | [] => rfl
  | F :: rest =>
    rw [getAllSymbolsOfList, List.count_append, count_get_all_symbols c F,
      count_getAllSymbolsOfList c rest, filesWithDepthOfList, List.map_append,
      List.sum_append, List.map_map]
    congr 2
end

theorem sum_contribution_single (c d : Nat) (f : FileRec) :
    ∀ (l : List (Nat × FileRec)), l.count (d, f) = 1 →
    (∀ p ∈ l, p ≠ (d, f) → p.2.symbols.count c = 0) →
    f.symbols.count c = 1 →
    (l.map (fun p => (p.1 + 1) * p.2.symbols.count c)).sum = d + 1 := by
  intro l
  induction l with
  | nil => intro h; simp at h
  | cons p rest ih =>
    intro hcount hzero hf
    by_cases hp : p = (d, f)
    · subst hp
      rw [List.count_cons_self] at hcount
      have hrest0 : rest.count (d, f) = 0 := by omega
      have hrestzero : ∀ q ∈ rest, q.2.symbols.count c = 0 := by
        intro q hq
        by_cases hqd : q = (d, f)
        · subst hqd
          exact absurd (List.count_pos_iff.mpr hq) (by omega)
        · exact hzero q (List.mem_cons_of_mem _ hq) hqd
      have hsum0 : (rest.map (fun p => (p.1 + 1) * p.2.symbols.count c)).sum = 0 := by
        apply List.sum_eq_zero
        intro x hx
        obtain ⟨q, hq, rfl⟩ := List.mem_map.mp hx
        rw [hrestzero q hq, Nat.mul_zero]
      simp [hsum0, hf]
    · have hcount' : rest.count (d, f) = 1 := by
        rw [List.count_cons_of_ne (fun he => hp he.symm)] at hcount
        exact hcount
      have hp0 : p.2.symbols.count c = 0 :=
        hzero p (List.mem_cons_self p rest) hp
      rw [List.map_cons, List.sum_cons, hp0, Nat.mul_zero, Nat.zero_add]
      exact ih hcount' (fun q hq => hzero q (List.mem_cons_of_mem _ hq)) hf

/-! ### Claim C10 -/

/-- C10: `get_all_files` returns each file position of the tree exactly
once (it is the depth-annotated file list stripped of depths), while
`get_all_symbols` counts every symbol of a file at depth `d` with
multiplicity `d + 1` — the method concatenates the symbols of
`get_all_files` (already recursive) with every subfolder's recursive
`get_all_symbols`.  In particular a symbol occurring exactly once, in one
file at depth `d`, appears `d + 1` times. -/
theorem C10_get_all_symbols_duplication (F : FolderT) (c d : Nat) (f : FileRec) :
    get_all_files F = (filesWithDepth F).map Prod.snd
    ∧ (get_all_symbols F).count c
        = ((filesWithDepth F).map (fun p => (p.1 + 1) * p.2.symbols.count c)).sum
    ∧ ((filesWithDepth F).count (d, f) = 1 →
      (∀ p ∈ filesWithDepth F, p ≠ (d, f) → p.2.symbols.count c = 0) →
      f.symbols.count c = 1 →
      (get_all_symbols F).count c = d + 1) :=
  ⟨get_all_files_eq_fwd F, count_get_all_symbols c F,
    fun h1 h2 h3 =>
      (count_get_all_symbols c F).trans
        (sum_contribution_single c d f (filesWithDepth F) h1 h2 h3)⟩

/-- C10 witness: a project root with one subfolder holding one file with
one symbol — the symbol is listed twice (depth 1). -/
theorem C10_get_all_symbols_duplication_witness :
    (get_all_symbols (.mk "root" [] [.mk "sub" [⟨"a.py", [5]⟩] []])).count 5 = 1 + 1 :=
  (C10_get_all_symbols_duplication (.mk "root" [] [.mk "sub" [⟨"a.py", [5]⟩] []])
      5 1 ⟨"a.py", [5]⟩).2.2 (by decide) (by decide) (by decide)

/-! ## Transactional persistence (claim C8)

`from_obj_to_sql` (database.py lines 11-189) opens one SQLite
connection, runs every insert on the same cursor (Python's `sqlite3`
opens one implicit transaction at the first INSERT), commits once at the
end, and on any exception rolls back and re-raises.  Inserted rows are
modelled as data; per-statement failure is an oracle.  Language-row
caching and the numeric `lastrowid` bookkeeping are elided: they do not
affect which statements run inside the one transaction. -/

/-- One INSERT executed by `from_obj_to_sql`. -/
inductive DbOp : Type where
  | folderRow (name : String)
  | fileRow (path : String)
  | symbolRow (symId : Nat)
  | relRow (caller called : Nat)
  | projectRow (name : String)
deriving DecidableEq, Repr

mutual
/-- `insert_folder` (database.py lines 45-59): the folder's row, then
recursively its subfolders, then its files. -/
def insert_folder_ops : FolderT → List DbOp
  | .mk name files subs =>
    DbOp.folderRow name :: (insertFoldersOps subs ++ insertFilesOps files)

/-- The `for sub in folder.subfolders` loop of `insert_folder`. -/
def insertFoldersOps : List FolderT → List DbOp
  | [] => []
  | F :: rest => insert_folder_ops F ++ insertFoldersOps rest

/-- `insert_file` (database.py lines 61-83): the file's row, then its
symbols' rows. -/
def insertFilesOps : List FileRec → List DbOp
  | [] => []
  | f :: rest =>
    (DbOp.fileRow f.path :: f.symbols.map DbOp.symbolRow) ++ insertFilesOps rest
end

/-- Every statement `from_obj_to_sql` runs before `conn.commit()`:
folders/files/symbols, then the relationship rows of
`insert_symbol_relationships`, then the `ProjectData` row. -/
def from_obj_to_sql_ops (project : FolderT) (projName : String)
    (g : CallGraph) (allSyms : List Nat) : List DbOp :=
  insert_folder_ops project
    ++ (insert_symbol_relationships g allSyms).map (fun r => DbOp.relRow r.1 r.2)
    ++ [DbOp.projectRow projName]

/-- A SQLite connection: committed rows, the open transaction's pending
rows, and how many COMMITs were issued. -/
structure SqlConn where
  committed : List DbOp
  pending : List DbOp
  commits : Nat
deriving DecidableEq, Repr

/-- `cur.execute("INSERT ...")` inside the open transaction. -/
def execInsert (conn : SqlConn) (op : DbOp) : SqlConn :=
  { conn with pending := conn.pending ++ [op] }

/-- `conn.commit()`. -/
def execCommit (conn : SqlConn) : SqlConn :=
  { committed := conn.committed ++ conn.pending, pending := [],
    commits := conn.commits + 1 }

/-- `conn.rollback()`. -/
def execRollback (conn : SqlConn) : SqlConn :=
  { conn with pending := [] }

/-- Run the inserts in order; the first statement at which the oracle
reports a SQLite error raises, leaving the statements before it
pending. -/
def runInserts (conn : SqlConn) (ops : List DbOp) (failsAt : DbOp → Bool) :
    SqlConn × Bool :=
  match ops with
  | [] => (conn, false)
  | op :: rest =>
    if failsAt op then (conn, true)
    else runInserts (execInsert conn op) rest failsAt

/-- `from_obj_to_sql` (database.py lines 11-189): refuse unnamed
projects before touching the database; otherwise run every insert in one
transaction, `commit` once on success and return the database path
(`db if db else f"{project.name}.db"`), or `rollback` and re-raise on
the first failure (returning `none` models the un-caught exception). -/
def from_obj_to_sql (db0 : List DbOp) (project : FolderT) (projName : String)
    (g : CallGraph) (allSyms : List Nat) (dbArg : Option String)
    (failsAt : DbOp → Bool) : SqlConn × Option String :=
  if projName = "" then (⟨db0, [], 0⟩, none)
  else
    let dbPath := dbArg.getD (projName ++ ".db")
    let r := runInserts ⟨db0, [], 0⟩ (from_obj_to_sql_ops project projName g allSyms) failsAt
    if r.2 then (execRollback r.1, none)
    else (execCommit r.1, some dbPath)

theorem runInserts_spec (ops : List DbOp) (failsAt : DbOp → Bool) :
    ∀ (conn : SqlConn),
      (runInserts conn ops failsAt).1.committed = conn.committed
      ∧ (runInserts conn ops failsAt).1.commits = conn.commits
      ∧ ((runInserts conn ops failsAt).2 = false →
        (runInserts conn ops failsAt).1.pending = conn.pending ++ ops) := by
  induction ops with
  | nil => intro conn; exact ⟨rfl, rfl, fun _ => by simp [runInserts]⟩
  | cons op rest ih =>
    intro conn
    rw [runInserts]
    by_cases hf : failsAt op
    · simp [hf]
    · obtain ⟨h1, h2, h3⟩ := ih (execInsert conn op)
      rw [if_neg hf]
      refine ⟨h1.trans rfl, h2.trans rfl, fun hok => ?_⟩
      rw [h3 hok]
      simp [execInsert]

/-! ### Claim C8 -/

/-- C8: the store adapter persists the whole project in one transaction.
On success exactly one COMMIT is issued, the database gains exactly the
run's rows, and the caller receives the database path (`db` argument, or
`<projectName>.db`); on any statement failure the transaction is rolled
back — the committed database is exactly what it was before, with zero
COMMITs — and the exception propagates to the caller (`none`), making
persistence failure run-fatal. -/
theorem C8_single_transaction (db0 : List DbOp) (project : FolderT)
    (projName : String) (g : CallGraph) (allSyms : List Nat)
    (dbArg : Option String) (failsAt : DbOp → Bool) (hname : projName ≠ "") :
    ((from_obj_to_sql db0 project projName g allSyms dbArg failsAt).2.isSome →
      (from_obj_to_sql db0 project projName g allSyms dbArg failsAt).1.commits = 1
      ∧ (from_obj_to_sql db0 project projName g allSyms dbArg failsAt).1.committed
          = db0 ++ from_obj_to_sql_ops project projName g allSyms
      ∧ (from_obj_to_sql db0 project projName g allSyms dbArg failsAt).2
          = some (dbArg.getD (projName ++ ".db")))
    ∧ ((from_obj_to_sql db0 project projName g allSyms dbArg failsAt).2 = none →
      (from_obj_to_sql db0 project projName g allSyms dbArg failsAt).1.committed = db0
      ∧ (from_obj_to_sql db0 project projName g allSyms dbArg failsAt).1.commits = 0) := by
  obtain ⟨h1, h2, h3⟩ := runInserts_spec
    (from_obj_to_sql_ops project projName g allSyms) failsAt ⟨db0, [], 0⟩
  rw [from_obj_to_sql, if_neg hname]
  by_cases hfail :
      (runInserts ⟨db0, [], 0⟩ (from_obj_to_sql_ops project projName g allSyms) failsAt).2
  · simp only [hfail, if_pos]
    exact ⟨fun habs => by simp at habs,
      fun _ => ⟨by simp [execRollback, h1], by simp [execRollback, h2]⟩⟩
  · simp only [hfail, if_neg, Bool.false_eq_true, if_false]
    refine ⟨fun _ => ⟨by simp [execCommit, h2], ?_, by trivial⟩, fun habs => by simp at habs⟩
    have hp := h3 (by simpa using hfail)
    simp only [execCommit, h1, hp]
    simp

/-- C8 witness: the claim theorem at a concrete one-folder project, once
with no failures (success branch) and once with the project row failing
(rollback branch). -/
theorem C8_single_transaction_witness :
    (from_obj_to_sql [] (.mk "p" [⟨"a.py", [1]⟩] []) "p" emptyCallGraph [1]
        none (fun _ => false)).1.commits = 1
    ∧ (from_obj_to_sql [] (.mk "p" [⟨"a.py", [1]⟩] []) "p" emptyCallGraph [1]
        none (fun op => op == DbOp.projectRow "p")).1.committed = []
    ∧ (from_obj_to_sql [] (.mk "p" [⟨"a.py", [1]⟩] []) "p" emptyCallGraph [1]
        none (fun op => op == DbOp.projectRow "p")).1.commits = 0 :=
  ⟨((C8_single_transaction [] (.mk "p" [⟨"a.py", [1]⟩] []) "p" emptyCallGraph [1]
      none (fun _ => false) (by decide)).1 (by decide)).1,
   ((C8_single_transaction [] (.mk "p" [⟨"a.py", [1]⟩] []) "p" emptyCallGraph [1]
      none (fun op => op == DbOp.projectRow "p") (by decide)).2 (by decide)).1,
   ((C8_single_transaction [] (.mk "p" [⟨"a.py", [1]⟩] []) "p" emptyCallGraph [1]
      none (fun op => op == DbOp.projectRow "p") (by decide)).2 (by decide)).2⟩

/-! ## Document lifecycle: didOpen before queries (claim C7)

`LSP_Extractor.run_extraction` runs `extract_and_filter_symbols` and then
`extract_references`; `_extract_symbols` consults `self.opened_files`
before sending `didOpen`.  The trace of protocol events sent for each
file is modelled explicitly; server behaviour (did the open succeed, and
which symbols the documentSymbol round produced) is an oracle keyed by
the file's LSP path. -/

/-- A request/notification sent to the server on behalf of a file. -/
inductive LspEvent : Type where
  | didOpen (p : String)
  | docSymbolReq (p : String)
  | definitionReq (p : String)
  | referencesReq (p : String)
deriving DecidableEq, Repr

/-- Server-side oracle: whether `did_open_file` succeeds for a path (a
failed open sends nothing and reports `False`; the no-server-for-language
early return is modelled the same way), and the symbol models that
`_process_lsp_symbols` produces from the documentSymbol response. -/
structure ExtractorOracle where
  openOk : String → Bool
  syms : String → List MSym

/-- The extractor state threaded through the run: `self.opened_files`
and each file's `file.symbols`. -/
structure ExtractorState where
  openedFiles : List String
  fileSyms : List (String × List MSym)

/-- Processing of one file by `extract_and_filter_symbols`
(lsp_extractor.py lines 63-83 and 140-155): skip `didOpen` when the path
is already in `opened_files`; on a failed open, return `[]` (so
`file.symbols` becomes empty and no definition query is issued);
otherwise request `documentSymbol` and then one `definition` per
extracted symbol. -/
def extract_file_step (o : ExtractorOracle) (st : ExtractorState) (p : String) :
    ExtractorState × List LspEvent :=
  if p ∈ st.openedFiles then
    ({ st with fileSyms := dictSet st.fileSyms p (o.syms p) },
     LspEvent.docSymbolReq p :: (o.syms p).map (fun _ => LspEvent.definitionReq p))
  else if o.openOk p then
    ({ openedFiles := st.openedFiles ++ [p],
       fileSyms := dictSet st.fileSyms p (o.syms p) },
     LspEvent.didOpen p :: LspEvent.docSymbolReq p
       :: (o.syms p).map (fun _ => LspEvent.definitionReq p))
  else
    ({ st with fileSyms := dictSet st.fileSyms p [] }, [])

/-- The `for file in self.project.get_all_files()` loop of
`extract_and_filter_symbols`, accumulating state and trace. -/
def extract_phase (o : ExtractorOracle) :
    List String → ExtractorState × List LspEvent → ExtractorState × List LspEvent
  | [], acc => acc
  | p :: rest, acc =>
    extract_phase o rest
      ((extract_file_step o acc.1 p).1, acc.2 ++ (extract_file_step o acc.1 p).2)

/-- `extract_references` for one file (lsp_extractor.py lines 160-172):
one `references` request per stored symbol that has a selection range. -/
def references_file_events (syms : List MSym) (p : String) : List LspEvent :=
  syms.flatMap (fun s =>
    match s.selectionRange with
    | none => []
    | some _ => [LspEvent.referencesReq p])

/-- The `for file in self.project.get_all_files()` loop of
`extract_references`; files whose extraction produced nothing stored
contribute nothing. -/
def references_phase (st : ExtractorState) : List String → List LspEvent
  | [] => []
  | p :: rest =>
    references_file_events ((dictGet st.fileSyms p).getD []) p
      ++ references_phase st rest

/-- `LSP_Extractor.run_extraction` (lsp_extractor.py lines 310-322):
symbol extraction over every file, then reference extraction over every
file, on the same `opened_files` tracking. -/
def run_extraction_trace (o : ExtractorOracle) (files : List String) :
    List LspEvent :=
  (extract_phase o files (⟨[], []⟩, [])).2
    ++ references_phase (extract_phase o files (⟨[], []⟩, [])).1 files

/-- The open files recorded by a trace prefix, on top of `seen`. -/
def seenAfter : List LspEvent → List String → List String
  | [], seen => seen
  | .didOpen p :: rest, seen => seenAfter rest (p :: seen)
  | .docSymbolReq _ :: rest, seen => seenAfter rest seen
  | .definitionReq _ :: rest, seen => seenAfter rest seen
  | .referencesReq _ :: rest, seen => seenAfter rest seen

/-- Spec-side check (claim C7 wording): walking the trace with the set
`seen` of already-opened files, every query event's path must already be
open. -/
def opensPrecedeQueries : List LspEvent → List String → Bool
  | [], _ => true
  | .didOpen p :: rest, seen => opensPrecedeQueries rest (p :: seen)
  | .docSymbolReq p :: rest, seen => p ∈ seen && opensPrecedeQueries rest seen
  | .definitionReq p :: rest, seen => p ∈ seen && opensPrecedeQueries rest seen
  | .referencesReq p :: rest, seen => p ∈ seen && opensPrecedeQueries rest seen

theorem seenAfter_append (a b : List LspEvent) (seen : List String) :
    seenAfter (a ++ b) seen = seenAfter b (seenAfter a seen) := by
  induction a generalizing seen with
  | nil => rfl
  | cons e rest ih =>
    cases e <;> simp [seenAfter, ih]

theorem opensPrecedeQueries_append (a b : List LspEvent) (seen : List String) :
    opensPrecedeQueries (a ++ b) seen
      = (opensPrecedeQueries a seen && opensPrecedeQueries b (seenAfter a seen)) := by
  induction a generalizing seen with
  | nil => rfl
  | cons e rest ih =>
    cases e <;> simp [opensPrecedeQueries, seenAfter, ih, Bool.and_assoc]

theorem dictGet_dictSet {κ α : Type} [DecidableEq κ]
    (d : List (κ × α)) (k : κ) (v : α) (q : κ) :
    dictGet (dictSet d k v) q = if q = k then some v else dictGet d q := by
  induction d with
  | nil =>
    simp only [dictSet, dictGet]
    by_cases hq : q = k
    · simp [hq]
    · simp [hq, show ¬(k = q) from fun h => hq h.symm]
  | cons kv rest ih =>
    obtain ⟨k', v'⟩ := kv
    simp only [dictSet]
    by_cases hk : k' = k
    · subst hk
      simp only [if_pos rfl, dictGet]
      by_cases hq : q = k'
      · simp [hq]
      · simp [hq, show ¬(k' = q) from fun h => hq h.symm]
    · rw [if_neg hk]
      simp only [dictGet]
      by_cases hq : q = k'
      · subst hq
        simp [dictGet, hk]
      · simp [show ¬(k' = q) from fun h => hq h.symm, ih, dictGet]

theorem seenAfter_defEvents (n : List MSym) (p : String) (s : List String) :
    seenAfter (n.map fun _ => LspEvent.definitionReq p) s = s := by
  induction n with
  | nil => rfl
  | cons _ t ih =>
    rw [List.map_cons]
    show seenAfter (List.map (fun _ => LspEvent.definitionReq p) t) s = s
    exact ih

theorem opq_defEvents (n : List MSym) (p : String) (seen : List String)
    (h : p ∈ seen) :
    opensPrecedeQueries (n.map fun _ => LspEvent.definitionReq p) seen = true := by
  induction n with
  | nil => rfl
  | cons _ t ih =>
    rw [List.map_cons]
    show (decide (p ∈ seen)
      && opensPrecedeQueries (List.map (fun _ => LspEvent.definitionReq p) t) seen) = true
    rw [ih]
    simp [h]

theorem count_defEvents (n : List MSym) (p q : String) :
    (n.map fun _ => LspEvent.definitionReq p).count (LspEvent.didOpen q) = 0 := by
  rw [List.count_eq_zero]
  intro hmem
  obtain ⟨_, _, h⟩ := List.mem_map.mp hmem
  exact absurd h (by simp)

/-- The invariant carried through the symbol-extraction loop: the trace
so far is didOpen-disciplined, its recorded opens are exactly
`opened_files`, each file was opened at most (and, once in
`opened_files`, exactly) once, and only opened files store a non-empty
symbol list. -/
def PhaseInv (st : ExtractorState) (evs : List LspEvent) : Prop :=
  opensPrecedeQueries evs [] = true
  ∧ (∀ p, p ∈ seenAfter evs [] ↔ p ∈ st.openedFiles)
  ∧ (∀ p, evs.count (.didOpen p) = if p ∈ st.openedFiles then 1 else 0)
  ∧ (∀ p l, dictGet st.fileSyms p = some l → l ≠ [] → p ∈ st.openedFiles)

theorem phaseInv_init : PhaseInv ⟨[], []⟩ [] := by
  refine ⟨rfl, by simp [seenAfter], by simp, by simp [dictGet]⟩

theorem phaseInv_step (o : ExtractorOracle) {st : ExtractorState}
    {evs : List LspEvent} (h : PhaseInv st evs) (p : String) :
    PhaseInv (extract_file_step o st p).1 (evs ++ (extract_file_step o st p).2) := by
  obtain ⟨hopq, hseen, hcount, hsyms⟩ := h
  rw [extract_file_step]
  by_cases hmem : p ∈ st.openedFiles
  · rw [if_pos hmem]
    refine ⟨?_, ?_, ?_, ?_⟩
    · rw [opensPrecedeQueries_append, hopq, Bool.true_and, opensPrecedeQueries]
      have hp : p ∈ seenAfter evs [] := (hseen p).mpr hmem
      simp only [hp, decide_True, Bool.true_and]
      exact opq_defEvents _ _ _ hp
    · intro q
      rw [seenAfter_append, seenAfter, seenAfter_defEvents]
      exact hseen q
    · intro q
      rw [List.count_append, List.count_cons_of_ne (by simp), count_defEvents,
        Nat.add_zero]
      exact hcount q
    · intro q l hget hne
      rw [dictGet_dictSet] at hget
      by_cases hq : q = p
      · exact hq ▸ hmem
      · rw [if_neg hq] at hget
        exact hsyms q l hget hne
  · rw [if_neg hmem]
    by_cases hok : o.openOk p
    · rw [if_pos hok]
      refine ⟨?_, ?_, ?_, ?_⟩
      · rw [opensPrecedeQueries_append, hopq, Bool.true_and, opensPrecedeQueries,
          opensPrecedeQueries]
        simp only [List.mem_cons, true_or, decide_True, Bool.true_and]
        exact opq_defEvents _ _ _ (List.mem_cons_self p _)
      · intro q
        rw [seenAfter_append, seenAfter, seenAfter, seenAfter_defEvents]
        simp only [List.mem_cons, List.mem_append, List.mem_singleton]
        rw [hseen q]
        tauto
      · intro q
        rw [List.count_append]
        by_cases hq : q = p
        · subst hq
          rw [List.count_cons_self, List.count_cons_of_ne (by simp),
            count_defEvents, hcount q, if_neg hmem]
          simp
        · rw [List.count_cons_of_ne (by simp [fun h : q = p => hq h]),
            List.count_cons_of_ne (by simp), count_defEvents, Nat.add_zero,
            hcount q]
          have : q ∈ st.openedFiles ++ [p] ↔ q ∈ st.openedFiles := by
            simp [hq]
          simp only [this]
      · intro q l hget hne
        rw [dictGet_dictSet] at hget
        by_cases hq : q = p
        · subst hq
          simp
        · rw [if_neg hq] at hget
          exact List.mem_append_left _ (hsyms q l hget hne)
    · rw [if_neg hok]
      refine ⟨by simpa using hopq, by simpa [seenAfter] using hseen,
        by simpa using hcount, ?_⟩
      intro q l hget hne
      rw [dictGet_dictSet] at hget
      by_cases hq : q = p
      · rw [if_pos hq] at hget
        exact absurd (Option.some.inj hget).symm hne
      · rw [if_neg hq] at hget
        exact hsyms q l hget hne

theorem phaseInv_run (o : ExtractorOracle) (files : List String) :
    ∀ (st : ExtractorState) (evs : List LspEvent), PhaseInv st evs →
      PhaseInv (extract_phase o files (st, evs)).1 (extract_phase o files (st, evs)).2 := by
  induction files with
  | nil => exact fun st evs h => h
  | cons p rest ih =>
    intro st evs h
    rw [extract_phase]
    exact ih _ _ (phaseInv_step o h p)

theorem seenAfter_refEvents (syms : List MSym) (p : String) (s : List String) :
    seenAfter (references_file_events syms p) s = s := by
  induction syms with
  | nil => rfl
  | cons s0 t ih =>
    rw [references_file_events, List.flatMap_cons, seenAfter_append]
    rcases s0.selectionRange with _ | r <;>
      simpa [seenAfter] using ih

theorem count_refEvents (syms : List MSym) (p q : String) :
    (references_file_events syms p).count (LspEvent.didOpen q) = 0 := by
  rw [List.count_eq_zero]
  intro hmem
  obtain ⟨s0, _, hx⟩ := List.mem_flatMap.mp hmem
  rcases h0 : s0.selectionRange with _ | r <;> rw [h0] at hx <;> simp at hx

theorem opq_refEvents (syms : List MSym) (p : String) (seen : List String)
    (h : p ∈ seen) :
    opensPrecedeQueries (references_file_events syms p) seen = true := by
  induction syms with
  | nil => rfl
  | cons s0 t ih =>
    rw [references_file_events, List.flatMap_cons, opensPrecedeQueries_append]
    rcases s0.selectionRange with _ | r <;>
      simp_all [opensPrecedeQueries, seenAfter, references_file_events]

theorem count_references_phase (st : ExtractorState) (files : List String) (q : String) :
    (references_phase st files).count (LspEvent.didOpen q) = 0 := by
  induction files with
  | nil => rfl
  | cons p rest ih =>
    rw [references_phase, List.count_append, count_refEvents, ih]

theorem opq_references_phase (st : ExtractorState) (seen : List String)
    (h : ∀ q l, dictGet st.fileSyms q = some l → l ≠ [] → q ∈ seen) :
    ∀ (files : List String),
      opensPrecedeQueries (references_phase st files) seen = true := by
  intro files
  induction files with
  | nil => rfl
  | cons p rest ih =>
    rw [references_phase, opensPrecedeQueries_append, seenAfter_refEvents, ih,
      Bool.and_true]
    rcases hget : dictGet st.fileSyms p with _ | l
    · rfl
    · cases l with
      | nil => rfl
      | cons s0 t => exact opq_refEvents _ _ _ (h p (s0 :: t) hget (by simp))

/-! ### Claim C7 -/

/-- C7: over a whole extraction run — symbol extraction followed by
reference extraction, for any file list and any server behaviour —
`textDocument/didOpen` appears at most once per file in the emitted
event trace, and every `documentSymbol`, `definition` or `references`
event for a file is preceded by a successful `didOpen` for that file. -/
theorem C7_didOpen_once_and_first (o : ExtractorOracle) (files : List String)
    (p : String) :
    (run_extraction_trace o files).count (LspEvent.didOpen p) ≤ 1
    ∧ opensPrecedeQueries (run_extraction_trace o files) [] = true := by
  obtain ⟨hopq, hseen, hcount, hsyms⟩ :=
    phaseInv_run o files ⟨[], []⟩ [] phaseInv_init
  constructor
  · rw [run_extraction_trace, List.count_append, count_references_phase,
      Nat.add_zero, hcount p]
    split_ifs <;> omega
  · rw [run_extraction_trace, opensPrecedeQueries_append, hopq, Bool.true_and]
    exact opq_references_phase _ _
      (fun q l hget hne => (hseen q).mpr (hsyms q l hget hne)) files
